import Mathlib

/-!
Verification of the pysaic photomosaic core: a shallow embedding of the
colour-matching engine (`mosaic/match.py`, `stage_mosaic.py`), the tile cache
(`TileStore` in `mosaic/render_stream.py`), the streaming manager's
partitioning and eviction logic, and the render kernels
(`mosaic/render_funcs.py`), together with proofs of the documented
properties of those components.

Machine integers in the Python/numpy source are modelled by `Nat`/`Int`:
every quantity involved (8/16-bit colour channels, squared sums, byte
counts) stays far below any overflow boundary of the source's `int64` /
`float64` arithmetic, so unbounded integers are an exact model.
-/

namespace Pysaic

/-- An RGB colour, as the three channel values of a pixel or of a tile's
average colour.  Channels are widened to `Int` (the source widens `uint8`
pixels and `uint16` tile averages before multiplying, see
`stage_mosaic.py` line 61). -/
structure RGB where
  r : Int
  g : Int
  b : Int
deriving DecidableEq, Repr

/-- Validity of a colour coming from an 8-bit image: each channel is a byte. -/
def RGB.Valid (c : RGB) : Prop :=
  0 ≤ c.r ∧ c.r < 256 ∧ 0 ≤ c.g ∧ c.g < 256 ∧ 0 ≤ c.b ∧ c.b < 256

instance (c : RGB) : Decidable c.Valid := by
  unfold RGB.Valid; infer_instance

/-- Dot product of two colours, `r1*r2 + g1*g2 + b1*b2`
(`match.py` line 86: `ar*sr + ag*sg + ab*sb`). -/
def dot (p t : RGB) : Int :=
  p.r * t.r + p.g * t.g + p.b * t.b

/-- Precomputed squared-colour-sum of a tile's average colour:
`sum_avg_sq = np.sum(avg_colours ** 2, axis=1)` (`stage_mosaic.py` line 142),
i.e. `r² + g² + b²`. -/
def sumSq (t : RGB) : Int :=
  t.r ^ 2 + t.g ^ 2 + t.b ^ 2

/-- The distance score the matcher actually computes for pixel `p` against
tile colour `t`: `sum_avg_sq[k] - 2*(ar*sr + ag*sg + ab*sb)`
(`match.py` lines 43, 86, 132). -/
def distShortcut (p t : RGB) : Int :=
  sumSq t - 2 * dot p t

/-- The full squared Euclidean distance `(p-t)·(p-t)` between two colours.
Modelled from the spec: the brute-force comparison the shortcut is claimed
to agree with (spec §8, first testable property). -/
def distFull (p t : RGB) : Int :=
  (p.r - t.r) ^ 2 + (p.g - t.g) ^ 2 + (p.b - t.b) ^ 2

/-- Accumulator loop of the arg-min scan over the distance list: carries the
best (index, value) pair seen so far and the index of the next element; a
new element wins only if strictly smaller, so the first minimum in tile
order is kept.  This is the `for k ... if dist < min_dist` loop of
`build_matches_st` (`match.py` lines 39-46) and equally the semantics of
`np.argmin(distances)` in `build_matches_mt_1d` (`match.py` line 87). -/
def argminAux (best : Nat × Int) (i : Nat) : List Int → Nat
  | [] => best.1
  | d :: ds => if d < best.2 then argminAux (i, d) (i + 1) ds else argminAux best (i + 1) ds

/-- Index of the first minimum of a list of distance scores (0 on the empty
list, which the matcher never passes). -/
def argminList : List Int → Nat
  | [] => 0
  | d :: ds => argminAux (0, d) 1 ds

/-- The tile index the single-choice matcher computes for pixel colour `p`
against the tile-average list `tiles`: arg-min of the shortcut scores. -/
def matchIdx (tiles : List RGB) (p : RGB) : Nat :=
  argminList (tiles.map (distShortcut p))

/-- Adding the same constant to the running best value and to every element
of the remaining list does not change which index the arg-min scan returns. -/
theorem argminAux_map_add (l : List Int) (b : Nat) (v c : Int) (i : Nat) :
    argminAux (b, v + c) i (l.map (· + c)) = argminAux (b, v) i l := by
  induction l generalizing b v i with
  | nil => rfl
  | cons d ds ih =>
    by_cases h : d < v
    · simp only [List.map_cons, argminAux, if_pos (add_lt_add_right h c), if_pos h]
      exact ih i d (i + 1)
    · simp only [List.map_cons, argminAux, if_neg (fun hc => h (lt_of_add_lt_add_right hc)),
        if_neg h]
      exact ih b v (i + 1)

/-- Arg-min of a list is invariant under adding a constant to every element. -/
theorem argminList_map_add (l : List Int) (c : Int) :
    argminList (l.map (· + c)) = argminList l := by
  cases l with
  | nil => rfl
  | cons d ds => exact argminAux_map_add ds 0 d c 1

/-- Full specification of the arg-min scan: either the carried best survives
(and is a lower bound of the whole list), or the result points `k` places
into the list at a strictly better value that is minimal over the list and
strictly below every earlier element. -/
theorem argminAux_spec (l : List Int) (b : Nat) (v : Int) (i : Nat) :
    (argminAux (b, v) i l = b ∧ ∀ k, k < l.length → v ≤ l.getD k 0) ∨
    (∃ k, k < l.length ∧ argminAux (b, v) i l = i + k ∧ l.getD k 0 < v ∧
      (∀ m, m < l.length → l.getD k 0 ≤ l.getD m 0) ∧
      (∀ m, m < k → l.getD k 0 < l.getD m 0)) := by
  induction l generalizing b v i with
  | nil => exact Or.inl ⟨rfl, fun k hk => absurd hk (Nat.not_lt_zero k)⟩
  | cons d ds ih =>
    by_cases h : d < v
    · rw [show argminAux (b, v) i (d :: ds) = argminAux (i, d) (i + 1) ds from by
        simp [argminAux, h]]
      rcases ih i d (i + 1) with ⟨heq, hmin⟩ | ⟨k, hk, heq, hlt, hmin, hfirst⟩
      · refine Or.inr ⟨0, Nat.succ_pos _, by omega, by simpa using h, ?_, ?_⟩
        · intro m hm
          cases m with
          | zero => simp
          | succ m => simpa using hmin m (by simpa using hm)
        · intro m hm; omega
      · refine Or.inr ⟨k + 1, by simpa using hk, by omega, ?_, ?_, ?_⟩
        · simpa using lt_trans hlt h
        · intro m hm
          cases m with
          | zero => simpa using le_of_lt hlt
          | succ m => simpa using hmin m (by simpa using hm)
        · intro m hm
          cases m with
          | zero => simpa using hlt
          | succ m => simpa using hfirst m (by omega)
    · rw [show argminAux (b, v) i (d :: ds) = argminAux (b, v) (i + 1) ds from by
        simp [argminAux, h]]
      rcases ih b v (i + 1) with ⟨heq, hmin⟩ | ⟨k, hk, heq, hlt, hmin, hfirst⟩
      · refine Or.inl ⟨heq, ?_⟩
        intro m hm
        cases m with
        | zero => simpa using not_lt.mp h
        | succ m => simpa using hmin m (by simpa using hm)
      · refine Or.inr ⟨k + 1, by simpa using hk, by omega, ?_, ?_, ?_⟩
        · simpa using hlt
        · intro m hm
          cases m with
          | zero => simpa using le_of_lt (lt_of_lt_of_le hlt (not_lt.mp h))
          | succ m => simpa using hmin m (by simpa using hm)
        · intro m hm
          cases m with
          | zero => simpa using lt_of_lt_of_le hlt (not_lt.mp h)
          | succ m => simpa using hfirst m (by omega)

/-- Being the first index attaining the minimum of a distance list: the
index is in range, its value is a lower bound, and every earlier value is
strictly larger. -/
def IsFirstMin (l : List Int) (i : Nat) : Prop :=
  i < l.length ∧ (∀ j, j < l.length → l.getD i 0 ≤ l.getD j 0) ∧
    (∀ j, j < i → l.getD i 0 < l.getD j 0)

/-- On a non-empty list the arg-min scan returns the first index attaining
the minimum. -/
theorem argminList_isFirstMin (l : List Int) (h : l ≠ []) : IsFirstMin l (argminList l) := by
  cases l with
  | nil => exact absurd rfl h
  | cons d ds =>
    show IsFirstMin (d :: ds) (argminAux (0, d) 1 ds)
    rcases argminAux_spec ds 0 d 1 with ⟨heq, hmin⟩ | ⟨k, hk, heq, hlt, hmin, hfirst⟩
    · rw [heq]
      refine ⟨Nat.succ_pos _, ?_, fun j hj => absurd hj (Nat.not_lt_zero j)⟩
      intro j hj
      cases j with
      | zero => simp
      | succ j => simpa using hmin j (by simpa using hj)
    · rw [heq]
      refine ⟨by simp only [List.length_cons]; omega, ?_, ?_⟩
      · intro j hj
        rw [show (1 : Nat) + k = k + 1 from by omega]
        cases j with
        | zero => simpa using le_of_lt hlt
        | succ j => simpa using hmin j (by simpa using hj)
      · intro j hj
        rw [show (1 : Nat) + k = k + 1 from by omega] at hj ⊢
        cases j with
        | zero => simpa using hlt
        | succ j => simpa using hfirst j (by omega)

/-- A list has at most one first minimum. -/
theorem IsFirstMin.unique {l : List Int} {i j : Nat}
    (hi : IsFirstMin l i) (hj : IsFirstMin l j) : i = j := by
  obtain ⟨hil, himin, hifst⟩ := hi
  obtain ⟨hjl, hjmin, hjfst⟩ := hj
  rcases Nat.lt_trichotomy i j with h | h | h
  · exact absurd (himin j hjl) (not_le.mpr (hjfst i h))
  · exact h
  · exact absurd (hjmin i hil) (not_le.mpr (hifst j h))

/-- C1: for every pixel colour `p` and every tile-average list, the tile
index chosen via the precomputed squared-sum shortcut
(`argmin_k (sum_avg_sq[k] - 2*(p · t_k))`, `match.py` lines 84-87) equals
the index chosen by brute-force comparison of full squared Euclidean
distances `(p-t)·(p-t)`, with ties broken identically (first minimum in
tile order).  The two score lists differ by the per-pixel constant
`p·p`, which the arg-min ignores. -/
theorem shortcut_argmin_eq_euclidean_argmin (p : RGB) (tiles : List RGB) :
    argminList (tiles.map (distShortcut p)) = argminList (tiles.map (distFull p)) := by
  have hfun : tiles.map (distFull p) = (tiles.map (distShortcut p)).map (· + sumSq p) := by
    rw [List.map_map]
    apply List.map_congr_left
    intro t _
    simp only [Function.comp_apply, distFull, distShortcut, sumSq, dot]
    ring
  rw [hfun, argminList_map_add]

/-- Bitwise or acts as addition when the left operand is a multiple of
`2^k` and the right operand fits in `k` bits (disjoint bit fields). -/
theorem lor_eq_add_of_dvd_of_lt (k : Nat) :
    ∀ x y : Nat, 2 ^ k ∣ x → y < 2 ^ k → x ||| y = x + y := by
  induction k with
  | zero =>
    intro x y _ hy
    have : y = 0 := by omega
    subst this
    simp
  | succ k ih =>
    intro x y hx hy
    obtain ⟨m, rfl⟩ := hx
    have hxbit : Nat.bit false (2 ^ k * m) = 2 ^ (k + 1) * m := by
      simp [Nat.bit_val]; ring
    have hybit : Nat.bit (Nat.bodd y) (Nat.div2 y) = y := Nat.bit_decomp y
    have hy2 := Nat.bodd_add_div2 y
    have hdiv : Nat.div2 y < 2 ^ k := by
      have hpow : (2 : Nat) ^ (k + 1) = 2 ^ k * 2 := by ring
      rcases Nat.bodd y with _ | _ <;> simp at hy2 <;> omega
    rw [← hxbit, ← hybit, Nat.lor_bit, ih (2 ^ k * m) (Nat.div2 y) ⟨m, rfl⟩ hdiv]
    simp only [Bool.false_or, Nat.bit_val]
    rcases Nat.bodd y with _ | _ <;> simp at hy2 ⊢ <;> omega

/-- 24-bit colour key of a pixel: `key = sr << 16 | sg << 8 | sb`
(`match.py` line 81), computed on the non-negative channel values. -/
def keyOf (c : RGB) : Nat :=
  c.r.toNat <<< 16 ||| c.g.toNat <<< 8 ||| c.b.toNat

/-- For byte-valued channels the three fields of the colour key occupy
disjoint bits, so the bit-ors amount to positional addition. -/
theorem keyOf_eq_of_valid (c : RGB) (h : c.Valid) :
    keyOf c = c.r.toNat * 65536 + c.g.toNat * 256 + c.b.toNat := by
  obtain ⟨hr0, hr, hg0, hg, hb0, hb⟩ := h
  have hgN : c.g.toNat < 256 := by omega
  have hbN : c.b.toNat < 256 := by omega
  unfold keyOf
  rw [Nat.shiftLeft_eq, Nat.shiftLeft_eq]
  have h1 : c.r.toNat * 2 ^ 16 ||| c.g.toNat * 2 ^ 8 =
      c.r.toNat * 2 ^ 16 + c.g.toNat * 2 ^ 8 := by
    refine lor_eq_add_of_dvd_of_lt 16 _ _ ⟨c.r.toNat, by ring⟩ (by norm_num; omega)
  rw [h1]
  have h2 : c.r.toNat * 2 ^ 16 + c.g.toNat * 2 ^ 8 =
      2 ^ 8 * (c.r.toNat * 2 ^ 8 + c.g.toNat) := by ring
  rw [lor_eq_add_of_dvd_of_lt 8 _ _ ⟨c.r.toNat * 2 ^ 8 + c.g.toNat, h2⟩ (by norm_num; omega)]
  norm_num

/-- The colour key is injective on valid (byte-channel) colours: the memo
table never aliases two different colours. -/
theorem keyOf_injective {c c' : RGB} (h : c.Valid) (h' : c'.Valid)
    (hk : keyOf c = keyOf c') : c = c' := by
  rw [keyOf_eq_of_valid c h, keyOf_eq_of_valid c' h'] at hk
  obtain ⟨hr0, hr, hg0, hg, hb0, hb⟩ := h
  obtain ⟨hr0', hr', hg0', hg', hb0', hb'⟩ := h'
  have e1 : (c.r.toNat : Int) = c.r := Int.toNat_of_nonneg hr0
  have e2 : (c.g.toNat : Int) = c.g := Int.toNat_of_nonneg hg0
  have e3 : (c.b.toNat : Int) = c.b := Int.toNat_of_nonneg hb0
  have e4 : (c'.r.toNat : Int) = c'.r := Int.toNat_of_nonneg hr0'
  have e5 : (c'.g.toNat : Int) = c'.g := Int.toNat_of_nonneg hg0'
  have e6 : (c'.b.toNat : Int) = c'.b := Int.toNat_of_nonneg hb0'
  cases c; cases c'
  simp only [RGB.mk.injEq]
  simp only at e1 e2 e3 e4 e5 e6 hr hg hb hr' hg' hb' hk
  omega

/-- The memoization table of the matcher: a direct-addressed array of
`2^24` signed entries, one per possible 24-bit colour, `-1` marking "not
yet computed" (`cmap = np.zeros(2**24, dtype=np.int32); cmap.fill(-1)`,
`match.py` lines 71-72).  Modelled as a total function from keys. -/
def Cmap : Type := Nat → Int

/-- A fresh memo table, every entry `-1`. -/
def emptyCmap : Cmap := fun _ => -1

/-- One iteration of the memoized matching loop (`match.py` lines 79-88):
look the colour's key up, on a miss compute the arg-min over all tiles and
store it, on a hit reuse the cached index unchanged. -/
def stepMatch (tiles : List RGB) (cmap : Cmap) (c : RGB) : Int × Cmap :=
  if cmap (keyOf c) = -1 then
    ((matchIdx tiles c : Int),
      fun k => if k = keyOf c then (matchIdx tiles c : Int) else cmap k)
  else
    (cmap (keyOf c), cmap)

/-- The sequential matching pass: convert a stream of source colours to
tile indices, threading the memo table through (`build_matches_st`,
`match.py` lines 30-49, and each lane of `build_matches_mt_1d`,
lines 79-88). -/
def runMatches (tiles : List RGB) : Cmap → List RGB → List Int × Cmap
  | cmap, [] => ([], cmap)
  | cmap, c :: cs =>
    ((stepMatch tiles cmap c).1 :: (runMatches tiles (stepMatch tiles cmap c).2 cs).1,
      (runMatches tiles (stepMatch tiles cmap c).2 cs).2)

/-- Consistency of a memo table with a tile set: every populated entry for
a valid colour holds exactly the brute-force arg-min for that colour.  The
fresh table is trivially consistent, and (as proved below) every table the
matcher produces is. -/
def Consistent (tiles : List RGB) (cmap : Cmap) : Prop :=
  ∀ c : RGB, c.Valid → cmap (keyOf c) = -1 ∨ cmap (keyOf c) = matchIdx tiles c

/-- Core invariant of the memoized pass: from any consistent table, the
output is exactly the memo-free brute-force answer for every colour, and
the final table is again consistent. -/
theorem runMatches_spec (tiles : List RGB) (cmap : Cmap) (colours : List RGB)
    (hc : Consistent tiles cmap) (hv : ∀ c ∈ colours, c.Valid) :
    (runMatches tiles cmap colours).1 = colours.map (fun c => (matchIdx tiles c : Int)) ∧
      Consistent tiles (runMatches tiles cmap colours).2 := by
  induction colours generalizing cmap with
  | nil => exact ⟨rfl, hc⟩
  | cons c cs ih =>
    have hcv : c.Valid := hv c (List.mem_cons_self c cs)
    have hstep : (stepMatch tiles cmap c).1 = (matchIdx tiles c : Int) ∧
        Consistent tiles (stepMatch tiles cmap c).2 := by
      by_cases hhit : cmap (keyOf c) = -1
      · unfold stepMatch
        rw [if_pos hhit]
        refine ⟨rfl, ?_⟩
        intro c' hc'
        by_cases hkey : keyOf c' = keyOf c
        · right
          simp only [hkey, if_pos rfl, if_true]
          rw [keyOf_injective hc' hcv hkey]
        · simp only [if_neg hkey]
          exact hc c' hc'
      · unfold stepMatch
        rw [if_neg hhit]
        rcases hc c hcv with h | h
        · exact absurd h hhit
        · exact ⟨h, hc⟩
    obtain ⟨h1, h2⟩ := hstep
    obtain ⟨ih1, ih2⟩ := ih (stepMatch tiles cmap c).2 h2 (fun x hx => hv x (List.mem_cons_of_mem c hx))
    refine ⟨?_, ?_⟩
    · show (stepMatch tiles cmap c).1 :: (runMatches tiles (stepMatch tiles cmap c).2 cs).1 = _
      rw [h1, ih1, List.map_cons]
    · show Consistent tiles (runMatches tiles (stepMatch tiles cmap c).2 cs).2
      exact ih2

/-- C6: memoization is transparent.  For a fixed tile set and any
consistent memo table over valid source colours: (a) the pass output is
byte-identical to the memo-free brute-force answer (every memo hit equals
the freshly computed arg-min for that colour); (b) the final table is
again consistent, so matching the same colour twice yields the same index
both times; (c) the output is byte-identical to the same pass run with a
fresh (all `-1`) table. -/
theorem memoization_transparent (tiles : List RGB) (cmap : Cmap) (colours : List RGB)
    (hc : Consistent tiles cmap) (hv : ∀ c ∈ colours, c.Valid) :
    (runMatches tiles cmap colours).1 = colours.map (fun c => (matchIdx tiles c : Int)) ∧
      Consistent tiles (runMatches tiles cmap colours).2 ∧
      (runMatches tiles cmap colours).1 = (runMatches tiles emptyCmap colours).1 := by
  have hempty : Consistent tiles emptyCmap := fun _ _ => Or.inl rfl
  obtain ⟨h1, h2⟩ := runMatches_spec tiles cmap colours hc hv
  obtain ⟨h1e, _⟩ := runMatches_spec tiles emptyCmap colours hempty hv
  exact ⟨h1, h2, h1.trans h1e.symm⟩

/-- Tile averages of the memoization witness scenario (the four tiles of
the spec's end-to-end scenario, §8). -/
def witnessTiles : List RGB :=
  [⟨0, 0, 0⟩, ⟨255, 255, 255⟩, ⟨128, 128, 128⟩, ⟨200, 50, 50⟩]

/-- Source colours of the memoization witness scenario (the same colour
twice, exercising one miss and one hit). -/
def witnessColours : List RGB := [⟨10, 10, 10⟩, ⟨10, 10, 10⟩]

/-- Concrete instantiation of `memoization_transparent`: a fresh table is
consistent, the scenario's colours are valid bytes, and the memoized pass
over the duplicated colour returns the brute-force arg-min both times. -/
theorem memoization_transparent_witness :
    Consistent witnessTiles emptyCmap ∧ (∀ c ∈ witnessColours, c.Valid) ∧
      ((runMatches witnessTiles emptyCmap witnessColours).1 =
          witnessColours.map (fun c => (matchIdx witnessTiles c : Int)) ∧
        Consistent witnessTiles (runMatches witnessTiles emptyCmap witnessColours).2 ∧
        (runMatches witnessTiles emptyCmap witnessColours).1 =
          (runMatches witnessTiles emptyCmap witnessColours).1) :=
  ⟨fun _ _ => Or.inl rfl, by decide,
    memoization_transparent witnessTiles emptyCmap witnessColours
      (fun _ _ => Or.inl rfl) (by decide)⟩

/-- Number of entries of a distance list strictly smaller than the entry
at index `t` (the strict rank of `t` in the distance ordering). -/
def strictRank (dists : List Int) (t : Nat) : Nat :=
  ((List.range dists.length).filter
    (fun j => decide (dists.getD j 0 < dists.getD t 0))).length

/-- Index `t` is among the true `K` nearest tiles for the distance list:
fewer than `K` tiles are strictly closer. -/
def AmongKNearest (dists : List Int) (K t : Nat) : Prop :=
  t < dists.length ∧ strictRank dists t < K

/-- Semantics of the partial top-K selection
`parted = np.argpartition(distances, random_choice)[:random_choice]`
followed by `parted[np.argsort(distances[parted])]`
(`build_matches_mt_2d`, `match.py` lines 133-134): `sel` is a list of `K`
distinct in-range indices whose distances are no larger than every
unselected distance, listed in ascending distance order.  This captures
exactly what numpy guarantees for that composition; which tied index
enters the selection is not specified by `argpartition`. -/
def IsTopKSelection (dists : List Int) (K : Nat) (sel : List Nat) : Prop :=
  sel.length = K ∧ sel.Nodup ∧ (∀ t ∈ sel, t < dists.length) ∧
    (∀ t ∈ sel, ∀ j, j < dists.length → j ∉ sel →
      dists.getD t 0 ≤ dists.getD j 0) ∧
    sel.Pairwise (fun a b => dists.getD a 0 ≤ dists.getD b 0)

instance (dists : List Int) (K : Nat) (sel : List Nat) :
    Decidable (IsTopKSelection dists K sel) :=
  inferInstanceAs (Decidable (sel.length = K ∧ sel.Nodup ∧ (∀ t ∈ sel, t < dists.length) ∧
    (∀ t ∈ sel, ∀ j, j < dists.length → j ∉ sel →
      dists.getD t 0 ≤ dists.getD j 0) ∧
    sel.Pairwise (fun a b => dists.getD a 0 ≤ dists.getD b 0)))

/-- The per-pixel flattening step of the dithered matcher
(`process_matches_2d`, `match.py` line 158):
`match[np.random.randint(0, random_choice) if random_choice else 0]`,
with `r` standing for the drawn random position. -/
def pickMatch (sel : List Nat) (random_choice r : Nat) : Nat :=
  sel.getD (if random_choice = 0 then 0 else r) 0

/-- Every member of a valid top-K selection is among the true K nearest
tiles: all strictly closer indices belong to the selection too, and the
member itself does not count, so its strict rank is below `K`. -/
theorem topk_mem_among_kNearest (dists : List Int) (K : Nat) (sel : List Nat)
    (hsel : IsTopKSelection dists K sel) (t : Nat) (ht : t ∈ sel) :
    AmongKNearest dists K t := by
  obtain ⟨hlen, hnd, hmem, hmin, _⟩ := hsel
  refine ⟨hmem t ht, ?_⟩
  have hsub : ((List.range dists.length).filter
      (fun j => decide (dists.getD j 0 < dists.getD t 0))) ⊆ sel.erase t := by
    intro j hj
    have hjr := List.of_mem_filter hj
    have hjlt : dists.getD j 0 < dists.getD t 0 := of_decide_eq_true hjr
    have hjlen : j < dists.length := List.mem_range.mp (List.mem_of_mem_filter hj)
    have hjsel : j ∈ sel := by
      by_contra hout
      exact absurd (hmin t ht j hjlen hout) (not_le.mpr hjlt)
    have hjne : j ≠ t := fun h => by
      subst h; exact lt_irrefl _ hjlt
    exact (List.mem_erase_of_ne hjne).mpr hjsel
  have hndf : ((List.range dists.length).filter
      (fun j => decide (dists.getD j 0 < dists.getD t 0))).Nodup :=
    (List.nodup_range dists.length).filter _
  have hle := (List.subperm_of_subset hndf hsub).length_le
  have herase : (sel.erase t).length = sel.length - 1 := List.length_erase_of_mem ht
  have hpos : 0 < sel.length := List.length_pos.mpr (List.ne_nil_of_mem ht)
  unfold strictRank
  omega

/-- C5 (amended): soundness of the dithered top-K pipeline.  For any
selection the partial sort may produce and any drawn position `r < K`:
the flattened index is among the true K nearest; flattening with
`random_choice = 0` always picks the selection's first (nearest) entry,
whose distance equals the single-choice matcher's minimal distance; with
`K = 1` the produced index attains exactly that minimal distance, and
when the minimum is unique it coincides with the single-choice index. -/
theorem dithered_topk_sound (dists : List Int) (K : Nat) (sel : List Nat) (r : Nat)
    (hsel : IsTopKSelection dists K sel) (hr : r < K) :
    AmongKNearest dists K (pickMatch sel K r) ∧
      (∀ r2 : Nat, pickMatch sel 0 r2 = sel.getD 0 0) ∧
      dists.getD (sel.getD 0 0) 0 = dists.getD (argminList dists) 0 ∧
      (K = 1 → dists.getD (pickMatch sel K r) 0 = dists.getD (argminList dists) 0) ∧
      (K = 1 → (∀ j, j < dists.length → j ≠ argminList dists →
          dists.getD (argminList dists) 0 < dists.getD j 0) →
        pickMatch sel K r = argminList dists) := by
  have hKpos : K ≠ 0 := by omega
  have hlen1 : sel.length = K := hsel.1
  have hrlen : r < sel.length := by omega
  have hmemsel : pickMatch sel K r ∈ sel := by
    unfold pickMatch
    rw [if_neg hKpos, List.getD_eq_getElem sel 0 hrlen]
    exact List.getElem_mem hrlen
  have hnear := topk_mem_among_kNearest dists K sel hsel _ hmemsel
  have hselne : sel ≠ [] := by
    intro h
    rw [h] at hlen1
    exact hKpos hlen1.symm
  obtain ⟨s0, rest, hs0⟩ := List.exists_cons_of_ne_nil hselne
  have hhead : sel.getD 0 0 = s0 := by rw [hs0]; rfl
  have hs0mem : s0 ∈ sel := by rw [hs0]; exact List.mem_cons_self s0 rest
  have hs0len : s0 < dists.length := hsel.2.2.1 s0 hs0mem
  have hnil : dists ≠ [] := by
    intro h
    rw [h] at hs0len
    exact absurd hs0len (Nat.not_lt_zero s0)
  obtain ⟨hal, hamin, _⟩ := argminList_isFirstMin dists hnil
  have hheadmin : ∀ j, j < dists.length → dists.getD s0 0 ≤ dists.getD j 0 := by
    intro j hj
    by_cases hjin : j ∈ sel
    · rw [hs0] at hjin
      rcases List.mem_cons.mp hjin with rfl | hjr
      · exact le_refl _
      · have hpair := hsel.2.2.2.2
        rw [hs0] at hpair
        exact (List.pairwise_cons.mp hpair).1 j hjr
    · exact hsel.2.2.2.1 s0 hs0mem j hj hjin
  have hc3 : dists.getD (sel.getD 0 0) 0 = dists.getD (argminList dists) 0 := by
    rw [hhead]
    exact le_antisymm (hheadmin _ hal) (hamin s0 hs0len)
  have hval : K = 1 →
      dists.getD (pickMatch sel K r) 0 = dists.getD (argminList dists) 0 := by
    intro hK1
    have hpick : pickMatch sel K r = sel.getD 0 0 := by
      unfold pickMatch
      have hr0 : r = 0 := by omega
      rw [if_neg hKpos, hr0]
    rw [hpick]
    exact hc3
  refine ⟨hnear, fun r2 => rfl, hc3, hval, ?_⟩
  intro hK1 huniq
  by_contra hne2
  have hplen : pickMatch sel K r < dists.length := hnear.1
  have hlt := huniq (pickMatch sel K r) hplen hne2
  rw [hval hK1] at hlt
  exact lt_irrefl _ hlt

/-- Counterexample to C5 as stated: on the tied distance list `[5, 5]` the
partial selection with `K = 1` may validly return index `1` (nothing in
`np.argpartition`'s contract prefers one tied minimum over another), while
the single-choice matcher's `argmin` tie-break returns the first minimum,
index `0`. -/
theorem dithered_topk_tiebreak_cex :
    IsTopKSelection [5, 5] 1 [1] ∧ pickMatch [1] 1 0 = 1 ∧ argminList [5, 5] = 0 :=
  ⟨by decide, rfl, by decide⟩

/-- Concrete instantiation of `dithered_topk_sound`: distances `[3, 1, 2]`,
`K = 2`, the valid selection `[1, 2]`, random draw `r = 1`; the flattened
index `2` is among the 2 nearest tiles. -/
theorem dithered_topk_sound_witness :
    IsTopKSelection [3, 1, 2] 2 [1, 2] ∧ 1 < 2 ∧
      AmongKNearest [3, 1, 2] 2 (pickMatch [1, 2] 2 1) ∧
      ([3, 1, 2] : List Int).getD (([1, 2] : List Nat).getD 0 0) 0 =
        ([3, 1, 2] : List Int).getD (argminList [3, 1, 2]) 0 :=
  ⟨by decide, by decide,
    (dithered_topk_sound [3, 1, 2] 2 [1, 2] 1 (by decide) (by decide)).1,
    (dithered_topk_sound [3, 1, 2] 2 [1, 2] 1 (by decide) (by decide)).2.2.1⟩

/-- Decoded pixel content of one frame of a tile at one resolution,
abstracted to an opaque value (its byte size is accounted separately,
as in the source's `ram_usage` bookkeeping). -/
abbrev Frame : Type := Nat

/-- A `TileStore` (`render_stream.py` lines 24-104): per-resolution cache
of streamed-in tiles.  `finished` is the `OrderedDict` of
`tile_idx ↦ (mapped_idx, tile length)` entries in LRU order (front =
least recently used); `raw_arr` models the preallocated numpy array of
fast (dense) mode, `raw_dict` the numba dict of smart (sparse) mode;
`ram_usage` is the reported footprint in bytes. -/
structure TileStore where
  tile_size : Nat
  total_len : Nat
  is_smart : Bool
  finished : List (Nat × Nat × Nat)
  raw_arr : Nat → Frame
  raw_dict : Nat → Option Frame
  ram_usage : Nat

/-- `TileStore.__init__` (`render_stream.py` lines 30-48): dense mode
preallocates `len*tile_size*tile_size*3` bytes up front; sparse mode
starts empty at zero bytes. -/
def TileStore.init (tile_size len : Nat) (smart : Bool) : TileStore :=
  { tile_size := tile_size
    total_len := len
    is_smart := smart
    finished := []
    raw_arr := fun _ => 0
    raw_dict := fun _ => none
    ram_usage := if smart then 0 else len * tile_size * tile_size * 3 }

/-- Membership test `tile_idx in self.finished`. -/
def TileStore.containsTile (ts : TileStore) (tile_idx : Nat) : Bool :=
  ts.finished.any (fun e => e.1 == tile_idx)

/-- Sequential writes `self.raw[mapped_idx+i] = frame` into the dense
array, one frame per slot. -/
def arrWrite : (Nat → Frame) → Nat → List Frame → (Nat → Frame)
  | a, _, [] => a
  | a, m, f :: fs => arrWrite (fun k => if k = m then f else a k) (m + 1) fs

/-- Sequential writes `self.raw[mapped_idx+i] = frame` into the sparse
dict, one frame per key. -/
def dictWrite : (Nat → Option Frame) → Nat → List Frame → (Nat → Option Frame)
  | d, _, [] => d
  | d, m, f :: fs => dictWrite (fun k => if k = m then some f else d k) (m + 1) fs

/-- Removal `self.raw.pop(offset)` over `range(mapped_idx,
mapped_idx+tile_len)` from the sparse dict. -/
def dictEraseRange : (Nat → Option Frame) → Nat → Nat → (Nat → Option Frame)
  | d, _, 0 => d
  | d, m, n + 1 => dictEraseRange (fun k => if k = m then none else d k) (m + 1) n

/-- `TileStore.add_tile` (`render_stream.py` lines 50-65): a duplicate
tile index is logged and the call is a no-op; otherwise the entry is
recorded at the most-recently-used end and each frame is written, with
`ram_usage` growing by `tile_size*tile_size*3` per frame in smart mode
only. -/
def TileStore.add_tile (ts : TileStore) (tile_idx mapped_idx : Nat)
    (values : List Frame) : TileStore :=
  if ts.containsTile tile_idx then ts
  else
    { ts with
      finished := ts.finished ++ [(tile_idx, mapped_idx, values.length)]
      ram_usage := ts.ram_usage +
        (if ts.is_smart then values.length * (ts.tile_size * ts.tile_size * 3) else 0)
      raw_arr := if ts.is_smart then ts.raw_arr else arrWrite ts.raw_arr mapped_idx values
      raw_dict := if ts.is_smart then dictWrite ts.raw_dict mapped_idx values
                  else ts.raw_dict }

/-- `TileStore.free_tile` (`render_stream.py` lines 79-91): a no-op
returning 0 freed bytes in fast mode or when the tile is absent;
otherwise pops the entry, erases its frame range from the dict, and
returns `tile_len * tile_size * tile_size * 3` freed bytes, subtracting
them from `ram_usage`. -/
def TileStore.free_tile (ts : TileStore) (tile_idx : Nat) : TileStore × Nat :=
  if ts.is_smart then
    match ts.finished.find? (fun e => e.1 == tile_idx) with
    | none => (ts, 0)
    | some e =>
      ({ ts with
          finished := ts.finished.filter (fun e2 => !(e2.1 == tile_idx))
          raw_dict := dictEraseRange ts.raw_dict e.2.1 e.2.2
          ram_usage := ts.ram_usage - e.2.2 * (ts.tile_size * ts.tile_size * 3) },
        e.2.2 * (ts.tile_size * ts.tile_size * 3))
  else (ts, 0)

/-- `OrderedDict.move_to_end` keyed by tile index: if present, the entry
moves to the most-recently-used end; otherwise nothing changes. -/
def moveToEnd (l : List (Nat × Nat × Nat)) (idx : Nat) : List (Nat × Nat × Nat) :=
  match l.find? (fun e => e.1 == idx) with
  | none => l
  | some e => l.filter (fun e2 => !(e2.1 == idx)) ++ [e]

/-- `TileStore.refresh` (`render_stream.py` lines 67-73): move every
present requested index to the most-recently-used end; a no-op in fast
mode.  The source iterates a Python set, so the model takes the indices
in an arbitrary list order. -/
def TileStore.refresh (ts : TileStore) (idxs : List Nat) : TileStore :=
  if ts.is_smart then { ts with finished := idxs.foldl moveToEnd ts.finished }
  else ts

/-- One externally observable operation on a tile store. -/
inductive TSOp where
  | put (tile_idx mapped_idx : Nat) (values : List Frame)
  | evict (tile_idx : Nat)
  | touch (idxs : List Nat)

/-- Apply one operation (`add_tile` / `free_tile` / `refresh`). -/
def TileStore.applyOp (ts : TileStore) : TSOp → TileStore
  | .put t m vs => ts.add_tile t m vs
  | .evict t => (ts.free_tile t).1
  | .touch idxs => ts.refresh idxs

/-- Apply a sequence of operations in order. -/
def TileStore.applyOps (ts : TileStore) (ops : List TSOp) : TileStore :=
  ops.foldl TileStore.applyOp ts

/-- Total number of frames currently recorded in the store's entries. -/
def TileStore.storedFrames (ts : TileStore) : Nat :=
  (ts.finished.map (fun e => e.2.2)).sum

/-- Well-formedness of a tile store: entry keys are distinct (the
`OrderedDict` guarantees this) and `ram_usage` is exactly the dense
preallocation in fast mode, or `storedFrames * tile_size² * 3` in smart
mode. -/
def TileStore.WF (ts : TileStore) : Prop :=
  (ts.finished.map (fun e => e.1)).Nodup ∧
    ts.ram_usage = (if ts.is_smart then ts.storedFrames * (ts.tile_size * ts.tile_size * 3)
      else ts.total_len * ts.tile_size * ts.tile_size * 3)

/-- Every mode/geometry field of a tile store survives `add_tile`. -/
theorem add_tile_fields (ts : TileStore) (t m : Nat) (vs : List Frame) :
    (ts.add_tile t m vs).tile_size = ts.tile_size ∧
      (ts.add_tile t m vs).total_len = ts.total_len ∧
      (ts.add_tile t m vs).is_smart = ts.is_smart := by
  unfold TileStore.add_tile
  split <;> exact ⟨rfl, rfl, rfl⟩

/-- Every mode/geometry field of a tile store survives `free_tile`. -/
theorem free_tile_fields (ts : TileStore) (t : Nat) :
    ((ts.free_tile t).1.tile_size = ts.tile_size ∧
      (ts.free_tile t).1.total_len = ts.total_len ∧
      (ts.free_tile t).1.is_smart = ts.is_smart) := by
  unfold TileStore.free_tile
  split
  · split <;> exact ⟨rfl, rfl, rfl⟩
  · exact ⟨rfl, rfl, rfl⟩

/-- `refresh` only permutes the LRU order: every other field is untouched. -/
theorem refresh_fields (ts : TileStore) (idxs : List Nat) :
    (ts.refresh idxs).tile_size = ts.tile_size ∧
      (ts.refresh idxs).total_len = ts.total_len ∧
      (ts.refresh idxs).is_smart = ts.is_smart ∧
      (ts.refresh idxs).raw_arr = ts.raw_arr ∧
      (ts.refresh idxs).raw_dict = ts.raw_dict ∧
      (ts.refresh idxs).ram_usage = ts.ram_usage := by
  unfold TileStore.refresh
  split <;> exact ⟨rfl, rfl, rfl, rfl, rfl, rfl⟩

/-- With distinct keys, removing the found entry and re-appending it is a
permutation of the original entry list. -/
theorem filter_append_perm_of_find? {l : List (Nat × Nat × Nat)} {t : Nat}
    {e : Nat × Nat × Nat} (hnd : (l.map (fun x => x.1)).Nodup)
    (hfind : l.find? (fun x => x.1 == t) = some e) :
    List.Perm (l.filter (fun x => !(x.1 == t)) ++ [e]) l := by
  induction l with
  | nil => exact absurd hfind (by simp)
  | cons h tl ih =>
    rw [List.map_cons, List.nodup_cons] at hnd
    by_cases hh : h.1 = t
    · rw [List.find?_cons_of_pos tl (by simp [hh])] at hfind
      injection hfind with he
      subst he
      rw [List.filter_cons_of_neg (by simp [hh])]
      have hself : tl.filter (fun x => !(x.1 == t)) = tl := by
        apply List.filter_eq_self.mpr
        intro x hx
        simp only [Bool.not_eq_true', beq_eq_false_iff_ne, ne_eq]
        intro hxt
        have hxmem : x.1 ∈ tl.map (fun y => y.1) := List.mem_map_of_mem (fun y => y.1) hx
        rw [hxt, ← hh] at hxmem
        exact hnd.1 hxmem
      rw [hself]
      exact List.perm_append_singleton h tl
    · rw [List.find?_cons_of_neg tl (by simp [hh])] at hfind
      rw [List.filter_cons_of_pos (by simp [hh]), List.cons_append]
      exact (ih hnd.2 hfind).cons h

/-- With distinct keys, `move_to_end` permutes the entry list. -/
theorem moveToEnd_perm (l : List (Nat × Nat × Nat)) (idx : Nat)
    (hnd : (l.map (fun x => x.1)).Nodup) : List.Perm (moveToEnd l idx) l := by
  unfold moveToEnd
  cases hfind : l.find? (fun e => e.1 == idx) with
  | none => exact List.Perm.refl l
  | some e => exact filter_append_perm_of_find? hnd hfind

/-- With distinct keys, a whole `refresh` sweep permutes the entry list. -/
theorem foldl_moveToEnd_perm (idxs : List Nat) (l : List (Nat × Nat × Nat))
    (hnd : (l.map (fun x => x.1)).Nodup) : List.Perm (idxs.foldl moveToEnd l) l := by
  induction idxs generalizing l with
  | nil => exact List.Perm.refl l
  | cons i is ih =>
    have h1 := moveToEnd_perm l i hnd
    have hnd2 : ((moveToEnd l i).map (fun x => x.1)).Nodup :=
      ((h1.map (fun x => x.1)).nodup_iff).mpr hnd
    exact (ih (moveToEnd l i) hnd2).trans h1

/-- With distinct keys, the entry found for a key contained in the list is
exactly the (unique) member with that key. -/
theorem find?_eq_of_mem_of_nodup {l : List (Nat × Nat × Nat)} {t : Nat}
    {e : Nat × Nat × Nat} (hnd : (l.map (fun x => x.1)).Nodup) (he : e ∈ l)
    (ht : e.1 = t) : l.find? (fun x => x.1 == t) = some e := by
  induction l with
  | nil => cases he
  | cons h tl ih =>
    rw [List.map_cons, List.nodup_cons] at hnd
    rcases List.mem_cons.mp he with rfl | hmem
    · exact List.find?_cons_of_pos tl (by simp [ht])
    · have hne : ¬h.1 = t := by
        intro hh
        exact hnd.1 (hh ▸ ht ▸ List.mem_map_of_mem (fun y => y.1) hmem)
      rw [List.find?_cons_of_neg tl (by simp [hne])]
      exact ih hnd.2 hmem

/-- A fresh tile store is well-formed in either mode. -/
theorem WF_init (size len : Nat) (smart : Bool) : (TileStore.init size len smart).WF := by
  constructor
  · exact List.nodup_nil
  · cases smart <;> simp [TileStore.init, TileStore.storedFrames]

/-- Each cache operation preserves well-formedness. -/
theorem WF_applyOp {ts : TileStore} (h : ts.WF) (op : TSOp) : (ts.applyOp op).WF := by
  obtain ⟨hnd, hram⟩ := h
  cases op with
  | put t m vs =>
    show (ts.add_tile t m vs).WF
    unfold TileStore.add_tile
    by_cases hc : ts.containsTile t
    · rw [if_pos hc]; exact ⟨hnd, hram⟩
    · rw [if_neg hc]
      have hnotmem : ∀ e ∈ ts.finished, ¬(e.1 = t) := by
        intro e he het
        exact hc (List.any_eq_true.mpr ⟨e, he, by simp [het]⟩)
      constructor
      · show ((ts.finished ++ [(t, m, vs.length)]).map (fun x => x.1)).Nodup
        refine ((List.perm_append_singleton (t, m, vs.length) ts.finished).map
          (fun x => x.1)).nodup_iff.mpr ?_
        rw [List.map_cons, List.nodup_cons]
        refine ⟨fun hmem => ?_, hnd⟩
        obtain ⟨e, he, het⟩ := List.mem_map.mp hmem
        exact hnotmem e he het
      · show ts.ram_usage +
            (if ts.is_smart then vs.length * (ts.tile_size * ts.tile_size * 3) else 0) =
          if ts.is_smart then
            ((ts.finished ++ [(t, m, vs.length)]).map (fun x => x.2.2)).sum *
              (ts.tile_size * ts.tile_size * 3)
          else ts.total_len * ts.tile_size * ts.tile_size * 3
        have hsum : ((ts.finished ++ [(t, m, vs.length)]).map (fun x => x.2.2)).sum =
            ts.storedFrames + vs.length := by
          simp [TileStore.storedFrames]
        by_cases hs : ts.is_smart
        · rw [if_pos hs, if_pos hs, hsum]
          rw [if_pos hs] at hram
          rw [hram, Nat.add_mul]
        · rw [if_neg hs, if_neg hs]
          rw [if_neg hs] at hram
          simpa using hram
  | evict t =>
    show (ts.free_tile t).1.WF
    unfold TileStore.free_tile
    by_cases hs : ts.is_smart
    · rw [if_pos hs]
      cases hfind : ts.finished.find? (fun e => e.1 == t) with
      | none => exact ⟨hnd, hram⟩
      | some e =>
        have hperm := filter_append_perm_of_find? hnd hfind
        constructor
        · show ((ts.finished.filter (fun e2 => !(e2.1 == t))).map (fun x => x.1)).Nodup
          exact hnd.sublist ((List.filter_sublist ts.finished).map (fun x => x.1))
        · show ts.ram_usage - e.2.2 * (ts.tile_size * ts.tile_size * 3) =
            if ts.is_smart then
              ((ts.finished.filter (fun e2 => !(e2.1 == t))).map (fun x => x.2.2)).sum *
                (ts.tile_size * ts.tile_size * 3)
            else ts.total_len * ts.tile_size * ts.tile_size * 3
          have hsum : ((ts.finished.filter (fun e2 => !(e2.1 == t))).map
              (fun x => x.2.2)).sum + e.2.2 = ts.storedFrames := by
            have hs2 := (hperm.map (fun x => x.2.2)).sum_eq
            simpa [TileStore.storedFrames] using hs2
          rw [if_pos hs]
          rw [if_pos hs] at hram
          rw [hram, ← hsum, Nat.add_mul]
          exact Nat.add_sub_cancel _ _
    · rw [if_neg hs]; exact ⟨hnd, hram⟩
  | touch idxs =>
    show (ts.refresh idxs).WF
    unfold TileStore.refresh
    by_cases hs : ts.is_smart
    · rw [if_pos hs]
      have hperm := foldl_moveToEnd_perm idxs ts.finished hnd
      constructor
      · exact ((hperm.map (fun x => x.1)).nodup_iff).mpr hnd
      · show ts.ram_usage =
          if ts.is_smart then
            ((idxs.foldl moveToEnd ts.finished).map (fun x => x.2.2)).sum *
              (ts.tile_size * ts.tile_size * 3)
          else ts.total_len * ts.tile_size * ts.tile_size * 3
        have hsum := (hperm.map (fun x => x.2.2)).sum_eq
        rw [if_pos hs, hsum]
        rw [if_pos hs] at hram
        exact hram
    · rw [if_neg hs]; exact ⟨hnd, hram⟩

/-- Well-formedness and the mode/geometry fields after any operation
sequence from a fresh store. -/
theorem WF_applyOps (size len : Nat) (smart : Bool) (ops : List TSOp) :
    ((TileStore.init size len smart).applyOps ops).WF ∧
      ((TileStore.init size len smart).applyOps ops).tile_size = size ∧
      ((TileStore.init size len smart).applyOps ops).total_len = len ∧
      ((TileStore.init size len smart).applyOps ops).is_smart = smart := by
  suffices h : ∀ (ops : List TSOp) (ts : TileStore), ts.WF →
      (ts.applyOps ops).WF ∧ (ts.applyOps ops).tile_size = ts.tile_size ∧
        (ts.applyOps ops).total_len = ts.total_len ∧
        (ts.applyOps ops).is_smart = ts.is_smart by
    simpa [TileStore.init] using h ops (TileStore.init size len smart) (WF_init size len smart)
  intro ops
  induction ops with
  | nil => exact fun ts h => ⟨h, rfl, rfl, rfl⟩
  | cons op rest ih =>
    intro ts h
    have hfields : (ts.applyOp op).tile_size = ts.tile_size ∧
        (ts.applyOp op).total_len = ts.total_len ∧
        (ts.applyOp op).is_smart = ts.is_smart := by
      cases op with
      | put t m vs => exact add_tile_fields ts t m vs
      | evict t => exact free_tile_fields ts t
      | touch idxs =>
        obtain ⟨h1, h2, h3, _⟩ := refresh_fields ts idxs
        exact ⟨h1, h2, h3⟩
    obtain ⟨ih1, ih2, ih3, ih4⟩ := ih (ts.applyOp op) (WF_applyOp h op)
    exact ⟨ih1, ih2.trans hfields.1, ih3.trans hfields.2.1, ih4.trans hfields.2.2⟩

/-- C2: memory-footprint accounting of a `TileStore` tier in both modes.
After any sequence of put/evict/refresh operations from construction:
a dense (fast) tier reports exactly `total_frames * size² * 3` bytes,
unchanged by every put; a sparse (smart) tier starts at 0 bytes, always
reports `3 * size² * (number of stored frames)`, grows by exactly
`size² * 3` bytes per frame on a put of a new tile index, and shrinks by
exactly `size² * 3` bytes per frame of the evicted tile, which is also
the freed byte count `free_tile` returns. -/
theorem tilecache_ram_accounting (size len : Nat) (ops : List TSOp) :
    ((TileStore.init size len false).applyOps ops).ram_usage = len * size * size * 3 ∧
      (TileStore.init size len true).ram_usage = 0 ∧
      ((TileStore.init size len true).applyOps ops).ram_usage =
        3 * (size * size) * ((TileStore.init size len true).applyOps ops).storedFrames ∧
      (∀ t m vs, ((TileStore.init size len true).applyOps ops).containsTile t = false →
        (((TileStore.init size len true).applyOps ops).add_tile t m vs).ram_usage =
          ((TileStore.init size len true).applyOps ops).ram_usage +
            vs.length * (size * size * 3)) ∧
      (∀ t e, e ∈ ((TileStore.init size len true).applyOps ops).finished → e.1 = t →
        (((TileStore.init size len true).applyOps ops).free_tile t).2 =
            e.2.2 * (size * size * 3) ∧
          (((TileStore.init size len true).applyOps ops).free_tile t).1.ram_usage +
              e.2.2 * (size * size * 3) =
            ((TileStore.init size len true).applyOps ops).ram_usage) := by
  obtain ⟨⟨hndD, hramD⟩, hszD, hlenD, hsmD⟩ := WF_applyOps size len false ops
  obtain ⟨⟨hndS, hramS⟩, hszS, hlenS, hsmS⟩ := WF_applyOps size len true ops
  refine ⟨?_, rfl, ?_, ?_, ?_⟩
  · rw [hramD, if_neg (by simp [hsmD]), hszD, hlenD]
  · rw [hramS, if_pos hsmS, hszS]
    ring
  · intro t m vs hc
    unfold TileStore.add_tile
    rw [if_neg (by simp [hc])]
    show _ + _ = _
    rw [hsmS, hszS, if_pos rfl]
  · intro t e hmem het
    have hfind := find?_eq_of_mem_of_nodup hndS hmem het
    unfold TileStore.free_tile
    rw [if_pos hsmS, hfind]
    refine ⟨by rw [hszS], ?_⟩
    show ((TileStore.init size len true).applyOps ops).ram_usage -
        e.2.2 * (_ * _ * 3) + e.2.2 * (size * size * 3) = _
    rw [hszS]
    have hle : e.2.2 * (size * size * 3) ≤
        ((TileStore.init size len true).applyOps ops).ram_usage := by
      rw [hramS, if_pos hsmS, hszS]
      have hmem2 : e.2.2 ∈ (((TileStore.init size len true).applyOps ops).finished.map
          (fun x => x.2.2)) := List.mem_map_of_mem (fun x => x.2.2) hmem
      have := List.single_le_sum (fun (x : Nat) _ => Nat.zero_le x) e.2.2 hmem2
      calc e.2.2 * (size * size * 3) ≤
          ((TileStore.init size len true).applyOps ops).storedFrames * (size * size * 3) :=
            Nat.mul_le_mul_right _ this
        _ = _ * (size * size * 3) := rfl
        _ = _ := by ring
    omega

/-- Concrete instantiation of `tilecache_ram_accounting` on a 2-pixel
sparse tier holding one two-frame tile: a put of a fresh index grows the
footprint by `1 * (2*2*3)` bytes, and evicting the stored tile frees
exactly `2 * (2*2*3)` bytes. -/
theorem tilecache_ram_accounting_witness :
    ((((TileStore.init 2 3 true).applyOps [TSOp.put 5 0 [7, 8]]).containsTile 9) = false ∧
        (5, 0, 2) ∈ ((TileStore.init 2 3 true).applyOps [TSOp.put 5 0 [7, 8]]).finished) ∧
      ((((TileStore.init 2 3 true).applyOps [TSOp.put 5 0 [7, 8]]).add_tile 9 2 [4]).ram_usage =
          ((TileStore.init 2 3 true).applyOps [TSOp.put 5 0 [7, 8]]).ram_usage +
            [4].length * (2 * 2 * 3)) ∧
      (((TileStore.init 2 3 true).applyOps [TSOp.put 5 0 [7, 8]]).free_tile 5).2 =
        (5, 0, 2).2.2 * (2 * 2 * 3) :=
  ⟨⟨by decide, by decide⟩,
    (tilecache_ram_accounting 2 3 [TSOp.put 5 0 [7, 8]]).2.2.2.1 9 2 [4] (by decide),
    ((tilecache_ram_accounting 2 3 [TSOp.put 5 0 [7, 8]]).2.2.2.2 5 (5, 0, 2)
      (by decide) rfl).1⟩

/-- `add_tile` records its tile index: afterwards the store contains it. -/
theorem containsTile_add_tile (ts : TileStore) (t m : Nat) (vs : List Frame) :
    (ts.add_tile t m vs).containsTile t = true := by
  unfold TileStore.add_tile
  by_cases hc : ts.containsTile t
  · rw [if_pos hc]; exact hc
  · rw [if_neg hc]
    show (ts.finished ++ [(t, m, vs.length)]).any (fun e => e.1 == t) = true
    rw [List.any_append]
    simp

/-- C4: `put` is idempotent per tile index.  A put for an index already
stored is a complete no-op — entries, pixel data, LRU order and reported
memory are all exactly as before — and in particular a second put of the
same index (with any offset and frame list) after a successful first put
changes nothing. -/
theorem put_idempotent (ts : TileStore) (t m m2 : Nat) (vs vs2 : List Frame) :
    (ts.containsTile t = true → ts.add_tile t m vs = ts) ∧
      (ts.add_tile t m vs).add_tile t m2 vs2 = ts.add_tile t m vs := by
  have hbase : ∀ (s : TileStore) (m3 : Nat) (vs3 : List Frame),
      s.containsTile t = true → s.add_tile t m3 vs3 = s := by
    intro s m3 vs3 hs
    unfold TileStore.add_tile
    rw [if_pos hs]
  exact ⟨hbase ts m vs,
    hbase (ts.add_tile t m vs) m2 vs2 (containsTile_add_tile ts t m vs)⟩

/-- Concrete instantiation of `put_idempotent`: after storing tile 3 in a
small sparse store, it is contained, and a duplicate put with a different
offset and frame list returns the state unchanged. -/
theorem put_idempotent_witness :
    ((TileStore.init 1 2 true).add_tile 3 0 [5]).containsTile 3 = true ∧
      (((TileStore.init 1 2 true).add_tile 3 0 [5]).add_tile 3 1 [6]) =
        ((TileStore.init 1 2 true).add_tile 3 0 [5]) :=
  ⟨by decide,
    (put_idempotent ((TileStore.init 1 2 true).add_tile 3 0 [5]) 3 1 0 [6] []).1 (by decide)⟩

/-- Early phase of `StreamingManager._stream_thread`
(`render_stream.py` lines 306-322): compute the blanks
`onscreen.difference(self.tile_stores[ts].finished.keys())`; when no
blanks remain, refresh the LRU order of every sparse, non-empty tier with
the on-screen set and return (`some` of the refreshed tiers) without any
decode work.  Otherwise (`none`) the job continues into classification,
eviction and decode dispatch. -/
def streamEarlyExit (stores : List TileStore) (ts_req : Nat) (onscreen : List Nat) :
    Option (List TileStore) :=
  match stores.find? (fun st => st.tile_size == ts_req) with
  | none => none
  | some req =>
    if (onscreen.filter (fun t => !(req.containsTile t))).isEmpty then
      some (stores.map (fun st =>
        if st.is_smart && st.ram_usage != 0 then st.refresh onscreen else st))
    else none

/-- C8: a stream request whose tiles are all already cached at the exact
requested tier takes the early-return path: no decode work happens and
no tier's contents change — entries are only permuted (LRU refresh) in
the sparse tiers, while pixel data, memory usage, mode and geometry stay
identical, and dense tiers are left exactly as they were. -/
theorem stream_cached_only_refreshes (stores : List TileStore) (ts_req : Nat)
    (onscreen : List Nat) (req : TileStore)
    (hfind : stores.find? (fun st => st.tile_size == ts_req) = some req)
    (hall : ∀ t ∈ onscreen, req.containsTile t = true)
    (hwf : ∀ st ∈ stores, (st.finished.map (fun e => e.1)).Nodup) :
    streamEarlyExit stores ts_req onscreen =
        some (stores.map (fun st =>
          if st.is_smart && st.ram_usage != 0 then st.refresh onscreen else st)) ∧
      List.Forall₂ (fun st st2 : TileStore =>
          List.Perm st2.finished st.finished ∧ st2.raw_arr = st.raw_arr ∧
            st2.raw_dict = st.raw_dict ∧ st2.ram_usage = st.ram_usage ∧
            st2.is_smart = st.is_smart ∧ st2.tile_size = st.tile_size ∧
            st2.total_len = st.total_len ∧ (st.is_smart = false → st2 = st))
        stores (stores.map (fun st =>
          if st.is_smart && st.ram_usage != 0 then st.refresh onscreen else st)) := by
  constructor
  · unfold streamEarlyExit
    rw [hfind]
    have hblanks : onscreen.filter (fun t => !(req.containsTile t)) = [] := by
      apply List.filter_eq_nil_iff.mpr
      intro t ht
      simp [hall t ht]
    dsimp only
    rw [hblanks]
    rfl
  · rw [List.forall₂_map_right_iff]
    apply List.forall₂_same.mpr
    intro st hst
    by_cases hcond : st.is_smart && st.ram_usage != 0
    · rw [if_pos hcond]
      have hs : st.is_smart = true := by
        have h2 := hcond
        simp only [Bool.and_eq_true] at h2
        exact h2.1
      obtain ⟨f1, f2, f3, f4, f5, f6⟩ := refresh_fields st onscreen
      refine ⟨?_, f4, f5, f6, f3, f1, f2, fun hfalse => absurd hs (by rw [hfalse]; simp)⟩
      show List.Perm (st.refresh onscreen).finished st.finished
      unfold TileStore.refresh
      rw [if_pos hs]
      exact foldl_moveToEnd_perm onscreen st.finished (hwf st hst)
    · rw [if_neg hcond]
      exact ⟨List.Perm.refl _, rfl, rfl, rfl, rfl, rfl, rfl, fun _ => rfl⟩

/-- Concrete instantiation of `stream_cached_only_refreshes`: one sparse
tier of size 2 holding tile 1, a request for tile 1 at tier 2 — the job
exits early with only the LRU refresh applied. -/
theorem stream_cached_only_refreshes_witness :
    ([(TileStore.init 2 4 true).add_tile 1 0 [9]].find?
          (fun st => st.tile_size == 2) =
        some ((TileStore.init 2 4 true).add_tile 1 0 [9])) ∧
      (∀ t ∈ [1], ((TileStore.init 2 4 true).add_tile 1 0 [9]).containsTile t = true) ∧
      streamEarlyExit [(TileStore.init 2 4 true).add_tile 1 0 [9]] 2 [1] =
        some ([(TileStore.init 2 4 true).add_tile 1 0 [9]].map (fun st =>
          if st.is_smart && st.ram_usage != 0 then st.refresh [1] else st)) :=
  ⟨rfl, by decide,
    (stream_cached_only_refreshes [(TileStore.init 2 4 true).add_tile 1 0 [9]] 2 [1]
      ((TileStore.init 2 4 true).add_tile 1 0 [9]) rfl (by decide) (by decide)).1⟩

/-- Context in which the streaming manager probes and evicts: the largest
dense tier (`fast_limit`), the largest tier worth allocating
(`res_limit`), and which tile indices are present in the store of each
size (`inStore size tile_idx`, i.e. `tile_idx in self.tile_stores[size]`). -/
structure EvictCtx where
  fast_limit : Nat
  res_limit : Nat
  inStore : Nat → Nat → Bool

/-- The probing loop of `_find_supersized_tile` (`render_stream.py`
lines 218-224): starting from a candidate size, keep doubling while the
size does not exceed `res_limit`, returning the first size whose store
holds the tile.  The fuel argument bounds the doubling steps; with any
positive start size, `res_limit + 1` steps always reach the exit. -/
def probeSizes (ctx : EvictCtx) (tile_idx : Nat) : Nat → Nat → Option Nat
  | 0, _ => none
  | fuel + 1, size =>
    if size ≤ ctx.res_limit then
      if ctx.inStore size tile_idx then some size
      else probeSizes ctx tile_idx fuel (size * 2)
    else none

/-- `StreamingManager._find_supersized_tile` (`render_stream.py`
lines 211-224): any size above `start_size` at which the tile is already
cached, or nothing.  Checks `res_limit` directly when `start_size` is at
or above it, skips straight to `fast_limit` when `start_size` is below
it, and otherwise probes upward from `max(fast_limit, start_size) * 2`. -/
def findSupersized (ctx : EvictCtx) (tile_idx start_size : Nat) : Option Nat :=
  if ctx.res_limit ≤ start_size ∧ ctx.inStore ctx.res_limit tile_idx = true then
    some ctx.res_limit
  else if start_size < ctx.fast_limit ∧ ctx.inStore ctx.fast_limit tile_idx = true then
    some ctx.fast_limit
  else probeSizes ctx tile_idx (ctx.res_limit + 1) (max ctx.fast_limit start_size * 2)

/-- The stage-guarded eviction condition of the progressive-eviction loop
(`render_stream.py` lines 370-372): stage 1 evicts tiles not on screen;
stage 2 evicts tiles in stores of a size other than the requested one
that still have a higher-resolution cached copy; stage 3 evicts tiles in
stores of a size other than the requested one that are not flagged for
downscale-retention (`cached_idxs`). -/
def evictCond (ctx : EvictCtx) (onscreen cached_idxs : Nat → Bool)
    (ts store_size freeing_stage tile_idx : Nat) : Bool :=
  (freeing_stage == 1 && !onscreen tile_idx) ||
    (freeing_stage == 2 && (store_size != ts &&
      (findSupersized ctx tile_idx store_size).isSome)) ||
    (freeing_stage == 3 && (store_size != ts && !cached_idxs tile_idx))

/-- Counterexample to C3 as stated: tiers 1 (dense, `fast_limit = 1`),
2 and 4 (sparse, `res_limit = 4`); a request at tier 4 = `res_limit`, so
the downscale-retention set `cached_idxs` stays empty (`render_stream.py`
line 350 requires `ts < res_limit`); tile 0 is on screen and cached only
in the sparse size-2 store.  Stage 3 of the eviction loop evicts tile 0
from the size-2 store (size `2 != 4` and `0 ∉ cached_idxs`) even though
it is on screen and no higher-resolution cached copy of it exists. -/
theorem eviction_stage3_evicts_visible_cex :
    evictCond ⟨1, 4, fun s t => s == 2 && t == 0⟩ (fun t => t == 0) (fun _ => false)
        4 2 3 0 = true ∧
      (fun t : Nat => t == 0) 0 = true ∧
      findSupersized ⟨1, 4, fun s t => s == 2 && t == 0⟩ 0 2 = none :=
  ⟨by decide, by decide, by decide⟩

/-- C3 (amended): evictions at stages 1 and 2 never remove a tile that is
both on screen and without a higher-resolution cached copy — stage 1 only
evicts off-screen tiles and stage 2 requires a higher-resolution copy to
exist.  Stage 3 only guarantees that the evicted tile sits in a store of
a size other than the requested tier and is not flagged for
downscale-retention; it may evict an on-screen tile with no
higher-resolution fallback (accepting a later re-decode). -/
theorem eviction_stage_guarantees (ctx : EvictCtx) (onscreen cached_idxs : Nat → Bool)
    (ts store_size stage tile_idx : Nat)
    (hcond : evictCond ctx onscreen cached_idxs ts store_size stage tile_idx = true) :
    ((stage = 1 ∨ stage = 2) →
      onscreen tile_idx = false ∨
        (findSupersized ctx tile_idx store_size).isSome = true) ∧
      (stage = 3 → store_size ≠ ts ∧ cached_idxs tile_idx = false) := by
  unfold evictCond at hcond
  simp only [Bool.or_eq_true, Bool.and_eq_true, beq_iff_eq, bne_iff_ne,
    Bool.not_eq_true'] at hcond
  constructor
  · intro hst
    rcases hcond with (⟨h1, h2⟩ | ⟨h1, h2⟩) | ⟨h1, h2⟩
    · exact Or.inl h2
    · exact Or.inr h2.2
    · rcases hst with h | h <;> omega
  · intro hst
    rcases hcond with (⟨h1, h2⟩ | ⟨h1, h2⟩) | ⟨h1, h2⟩
    · omega
    · omega
    · exact h2

/-- Concrete instantiation of `eviction_stage_guarantees`: a stage-1
eviction of an off-screen tile satisfies the on-screen/fallback
guarantee. -/
theorem eviction_stage_guarantees_witness :
    evictCond ⟨1, 2, fun _ _ => false⟩ (fun _ => false) (fun _ => false) 2 1 1 0 = true ∧
      ((1 = 1 ∨ 1 = 2) →
        (fun _ : Nat => false) 0 = false ∨
          (findSupersized ⟨1, 2, fun _ _ => false⟩ 0 1).isSome = true) :=
  ⟨by decide,
    (eviction_stage_guarantees ⟨1, 2, fun _ _ => false⟩ (fun _ => false) (fun _ => false)
      2 1 1 0 (by decide)).1⟩

/-- Configuration read by `StreamingManager.partition`: total frame count
of the mosaic's tiles, the prefetch multiplier setting, and the mean and
max tile lengths. -/
structure PartitionCfg where
  total_frames : Nat
  prefetch_multiplier : Nat
  mean_tile_len : Nat
  max_tile_len : Nat

/-- Estimated bytes to run a tier of size `raised` in dense mode
(`render_stream.py` line 158):
`2*total_frames*raised*raised*3 +
 3*PREFETCH_MULTIPLIER*min(mean_tile_len, max_tile_len)*w*h*3`. -/
def tierRequired (cfg : PartitionCfg) (raised w h : Nat) : Nat :=
  2 * cfg.total_frames * raised * raised * 3 +
    3 * cfg.prefetch_multiplier * min cfg.mean_tile_len cfg.max_tile_len * w * h * 3

/-- The per-tier loop of `StreamingManager.partition` (`render_stream.py`
lines 156-172) over the retained exponents: each tier of size `2^e` is
allocated dense (`true`) when the remaining budget covers its estimate
`or raised == 1`, deducting `raised*raised*3*total_frames` from the
budget, and sparse (`false`) otherwise. -/
def partitionGo (cfg : PartitionCfg) (w h : Nat) : List Nat → Int → List (Nat × Bool)
  | [], _ => []
  | e :: es, avail =>
    if 0 ≤ avail - (tierRequired cfg (2 ^ e) w h : Int) ∨ 2 ^ e = 1 then
      (2 ^ e, true) ::
        partitionGo cfg w h es (avail - (2 ^ e * 2 ^ e * 3 * cfg.total_frames : Nat))
    else (2 ^ e, false) :: partitionGo cfg w h es avail

/-- `StreamingManager.partition` (`render_stream.py` lines 129-172),
reduced to the mode decision per retained tier: tiers run over the
exponents `range(log2(min_limit), log2(res_limit*2))` where
`res_limit = 2^floor(log2(min(display_res)))`, starting from the
available RAM budget. -/
def partitionTiers (cfg : PartitionCfg) (min_limit w h : Nat) (available_ram : Int) :
    List (Nat × Bool) :=
  partitionGo cfg w h
    (List.range' (Nat.log2 min_limit)
      (Nat.log2 (2 ^ Nat.log2 (min w h) * 2) - Nat.log2 min_limit))
    available_ram

/-- Once the remaining budget is negative, every further tier of size at
least 2 is allocated sparse: its requirement is non-negative, and the
`raised == 1` escape hatch no longer applies. -/
theorem partitionGo_all_sparse (cfg : PartitionCfg) (w h : Nat) (es : List Nat)
    (avail : Int) (hav : avail < 0) (hes : ∀ e ∈ es, 1 ≤ e) :
    partitionGo cfg w h es avail = es.map (fun e => (2 ^ e, false)) := by
  induction es with
  | nil => rfl
  | cons e es ih =>
    have he1 : 1 ≤ e := hes e (List.mem_cons_self e es)
    have hne1 : ¬(2 ^ e = 1) := by
      have h2 : (2 : Nat) ^ 1 ≤ 2 ^ e := Nat.pow_le_pow_right (by norm_num) he1
      rw [pow_one] at h2
      omega
    have hreq : (0 : Int) ≤ (tierRequired cfg (2 ^ e) w h : Int) := Int.ofNat_nonneg _
    unfold partitionGo
    rw [if_neg (by push_neg; exact ⟨by omega, hne1⟩), List.map_cons]
    rw [ih (fun x hx => hes x (List.mem_cons_of_mem e hx))]

/-- C7: partitioning with minimum tier 1 and a budget of 0 bytes still
allocates the size-1 tier in dense mode (the `raised == 1` guaranteed
minimum), and every larger retained tier — up to the display-derived
resolution limit — falls back to sparse mode. -/
theorem partition_zero_budget (cfg : PartitionCfg) (w h : Nat)
    (htf : 1 ≤ cfg.total_frames) (hwh : 1 ≤ min w h) :
    partitionTiers cfg 1 w h 0 =
      (1, true) :: (List.range' 1 (Nat.log2 (min w h))).map (fun e => (2 ^ e, false)) := by
  unfold partitionTiers
  have hlog1 : Nat.log2 1 = 0 := Nat.log2_two_pow (n := 0)
  have hlogres : Nat.log2 (2 ^ Nat.log2 (min w h) * 2) = Nat.log2 (min w h) + 1 := by
    rw [← pow_succ]
    exact Nat.log2_two_pow
  rw [hlog1, hlogres, Nat.sub_zero, List.range'_succ 0 (Nat.log2 (min w h)) 1]
  show partitionGo cfg w h (0 :: List.range' (0 + 1) (Nat.log2 (min w h))) 0 = _
  unfold partitionGo
  have hcond : (0 : Int) ≤ 0 - (tierRequired cfg (2 ^ 0) w h : Int) ∨ (2 : Nat) ^ 0 = 1 :=
    Or.inr rfl
  rw [if_pos hcond]
  have hneg : (0 : Int) - ((2 : Nat) ^ 0 * 2 ^ 0 * 3 * cfg.total_frames : Nat) < 0 := by
    have h3 : 1 * 1 * 3 * cfg.total_frames = 3 * cfg.total_frames := by ring
    show (0 : Int) - ((1 * 1 * 3 * cfg.total_frames : Nat) : Int) < 0
    rw [h3]
    have : (3 : Nat) * cfg.total_frames ≠ 0 := by positivity
    omega
  rw [partitionGo_all_sparse cfg w h _ _ hneg
    (fun x hx => (List.mem_range'_1.mp hx).1)]
  rfl

/-- Concrete instantiation of `partition_zero_budget`: a 2×2 display with
5 total frames and zero budget keeps tiers 1 and 2, tier 1 dense and
tier 2 sparse. -/
theorem partition_zero_budget_witness :
    1 ≤ (PartitionCfg.mk 5 4 3 7).total_frames ∧ 1 ≤ min 2 2 ∧
      partitionTiers (PartitionCfg.mk 5 4 3 7) 1 2 2 0 = [(1, true), (2, false)] := by
  refine ⟨by norm_num, by norm_num, ?_⟩
  rw [partition_zero_budget (PartitionCfg.mk 5 4 3 7) 2 2 (by norm_num) (by norm_num)]
  have h2 : Nat.log2 (min 2 2) = 1 := Nat.log2_two_pow (n := 1)
  rw [h2]
  rfl

/-- Abstract pixel value of the render output. -/
abbrev Pixel : Type := Nat

/-- Pixel block of one decoded tile at the tier's resolution, indexed by
in-block coordinates. -/
def TileBlock : Type := Int → Int → Pixel

/-- The cell `(y, x)` is visited by the bounds-checked loops of the draw
kernels (`render_funcs.py` lines 99-100):
`for y in prange(max(y_start, 0), min(y_start+y_len, match_list.shape[0]))`
and `for x in range(max(x_start, 0), min(x_start+x_len,
match_list.shape[1]))`, with `H`/`W` the match grid's shape. -/
def accessedCell (x_start : Int) (x_len : Nat) (y_start : Int) (y_len : Nat)
    (H W : Nat) (y x : Int) : Prop :=
  max y_start 0 ≤ y ∧ y < min (y_start + y_len) H ∧
    max x_start 0 ≤ x ∧ x < min (x_start + x_len) W

instance (x_start : Int) (x_len : Nat) (y_start : Int) (y_len : Nat)
    (H W : Nat) (y x : Int) :
    Decidable (accessedCell x_start x_len y_start y_len H W y x) :=
  inferInstanceAs (Decidable (max y_start 0 ≤ y ∧ y < min (y_start + y_len) H ∧
    max x_start 0 ≤ x ∧ x < min (x_start + x_len) W))

/-- Raster buffer returned by a draw kernel: the
`np.zeros((x_len*tile_size, y_len*tile_size, 3), dtype=np.uint8)` output
with its pixel contents as a function of the two spatial coordinates. -/
structure Raster where
  dim0 : Nat
  dim1 : Nat
  channels : Nat
  pix : Int → Int → Pixel

/-- `draw_smart_static` (`render_funcs.py` lines 95-107), expressed
per output pixel: pixel `(i, j)` lies in the block of grid cell
`x = x_start + i / tile_size`, `y = y_start + j / tile_size` (each loop
iteration writes the disjoint block
`mosaic[(x-x_start)*ts:(x-x_start+1)*ts, (y-y_start)*ts:(y-y_start+1)*ts]`,
so each pixel is written by at most the one cell holding it); the pixel
holds that cell's tile data if the cell is visited by the cropped loops
and the sparse lookup `tile_dict.get(mapped_id)` succeeds, and stays at
the `np.zeros` fill value 0 otherwise. -/
def draw_smart_static (x_start : Int) (x_len : Nat) (y_start : Int) (y_len : Nat)
    (tile_map : Nat → Nat) (tile_dict : Nat → Option TileBlock)
    (match_list : Int → Int → Nat) (H W tile_size : Nat) : Raster :=
  { dim0 := x_len * tile_size
    dim1 := y_len * tile_size
    channels := 3
    pix := fun i j =>
      if 0 ≤ i ∧ i < (x_len * tile_size : Nat) ∧ 0 ≤ j ∧ j < (y_len * tile_size : Nat) then
        if accessedCell x_start x_len y_start y_len H W
            (y_start + j / tile_size) (x_start + i / tile_size) then
          match tile_dict (tile_map (match_list (y_start + j / tile_size)
              (x_start + i / tile_size))) with
          | some tile => tile (i % tile_size) (j % tile_size)
          | none => 0
        else 0
      else 0 }

/-- C9: safety of the sparse static draw kernel for every visible
rectangle, including rectangles overhanging the match grid.  (a) Every
grid cell the cropped loops visit lies strictly inside the grid's bounds,
so no match-grid read is out of range; (b) the returned raster has shape
`(x_len*tile_size, y_len*tile_size, 3)`; (c) a cell whose tile entry is
absent from the sparse cache is skipped, leaving its region of the output
zero-filled; (d) regions outside the visited cells also stay zero. -/
theorem draw_smart_static_safe (x_start : Int) (x_len : Nat) (y_start : Int)
    (y_len : Nat) (tile_map : Nat → Nat) (tile_dict : Nat → Option TileBlock)
    (match_list : Int → Int → Nat) (H W tile_size : Nat) :
    (∀ y x : Int, accessedCell x_start x_len y_start y_len H W y x →
        0 ≤ y ∧ y < H ∧ 0 ≤ x ∧ x < W) ∧
      ((draw_smart_static x_start x_len y_start y_len tile_map tile_dict
          match_list H W tile_size).dim0 = x_len * tile_size ∧
        (draw_smart_static x_start x_len y_start y_len tile_map tile_dict
          match_list H W tile_size).dim1 = y_len * tile_size ∧
        (draw_smart_static x_start x_len y_start y_len tile_map tile_dict
          match_list H W tile_size).channels = 3) ∧
      (∀ i j : Int,
        tile_dict (tile_map (match_list (y_start + j / tile_size)
            (x_start + i / tile_size))) = none →
          (draw_smart_static x_start x_len y_start y_len tile_map tile_dict
            match_list H W tile_size).pix i j = 0) ∧
      (∀ i j : Int,
        ¬accessedCell x_start x_len y_start y_len H W
            (y_start + j / tile_size) (x_start + i / tile_size) →
          (draw_smart_static x_start x_len y_start y_len tile_map tile_dict
            match_list H W tile_size).pix i j = 0) := by
  refine ⟨?_, ⟨rfl, rfl, rfl⟩, ?_, ?_⟩
  · intro y x hacc
    obtain ⟨h1, h2, h3, h4⟩ := hacc
    refine ⟨?_, ?_, ?_, ?_⟩ <;> omega
  · intro i j hnone
    show (if _ then _ else _) = 0
    by_cases hrange : 0 ≤ i ∧ i < ((x_len * tile_size : Nat) : Int) ∧ 0 ≤ j ∧
        j < ((y_len * tile_size : Nat) : Int)
    · rw [if_pos hrange]
      by_cases hacc : accessedCell x_start x_len y_start y_len H W
          (y_start + j / tile_size) (x_start + i / tile_size)
      · rw [if_pos hacc, hnone]
      · rw [if_neg hacc]
    · rw [if_neg hrange]
  · intro i j hnacc
    show (if _ then _ else _) = 0
    by_cases hrange : 0 ≤ i ∧ i < ((x_len * tile_size : Nat) : Int) ∧ 0 ≤ j ∧
        j < ((y_len * tile_size : Nat) : Int)
    · rw [if_pos hrange, if_neg hnacc]
    · rw [if_neg hrange]

/-- Concrete instantiation of `draw_smart_static_safe`: a 2×1-cell
rectangle starting off-grid at `x_start = -1` over a 1×1 grid with an
empty sparse cache — the absent entry leaves pixel (2, 0) zero. -/
theorem draw_smart_static_safe_witness :
    ((fun _ : Nat => (none : Option TileBlock))
        ((fun m : Nat => m) ((fun _ _ : Int => 0) (0 + (0 : Int) / 2)
          (-1 + (2 : Int) / 2))) = none) ∧
      (draw_smart_static (-1) 2 0 1 (fun m => m) (fun _ => none)
        (fun _ _ => 0) 1 1 2).pix 2 0 = 0 :=
  ⟨rfl,
    (draw_smart_static_safe (-1) 2 0 1 (fun m => m) (fun _ => none)
      (fun _ _ => 0) 1 1 2).2.2.1 2 0 rfl⟩

/-- Python `x or d` on an optional integer: both `None` and `0` are falsy
and yield the default (`tiles.py` lines 33-34). -/
def pyOr : Option Nat → Nat → Nat
  | none, d => d
  | some x, d => if x = 0 then d else x

/-- Frame-range state set by `Tile.__init__` (`tiles.py` lines 33-35). -/
structure PyTile where
  frame_idx : Nat
  end_frame_idx : Nat
  len : Int

/-- `Tile.__init__` frame bookkeeping (`tiles.py` lines 33-35):
`self.frame_idx = tile_frame_idx or 0`,
`self.end_frame_idx = end_frame_idx or 1`,
`self.len = self.end_frame_idx - self.frame_idx`.  Picture tiles pass
neither argument; video tiles pass both. -/
def mkTile (tile_frame_idx end_frame_idx : Option Nat) : PyTile :=
  { frame_idx := pyOr tile_frame_idx 0
    end_frame_idx := pyOr end_frame_idx 1
    len := (pyOr end_frame_idx 1 : Int) - (pyOr tile_frame_idx 0 : Int) }

/-- Tile lengths of the streamable tiles,
`tile_lens = [tiles[tile_idx].len for tile_idx in streamable]`
(`stage_mosaic.py` line 213). -/
def lensOf (tiles : List PyTile) (streamable : List Nat) : List Int :=
  streamable.map (fun t => (tiles.getD t (mkTile none none)).len)

/-- `mean_tile_len = int(np.mean(tile_lens))` (`stage_mosaic.py`
line 214); over the non-negative lengths at hand, truncating the float
mean agrees with integer division of the sum by the count. -/
def meanTileLen (lens : List Int) : Int :=
  lens.sum / lens.length

/-- Python `max(tile_lens)` over a non-empty list. -/
def listMax (lens : List Int) : Int :=
  lens.foldl max (lens.headD 0)

/-- `max_tile_len` selection (`stage_mosaic.py` lines 215-221): in hybrid
mode, the mean length when `CAP_TILE_LENGTHS` is set, otherwise the
maximum length; outside hybrid mode a constant 1. -/
def maxTileLenOf (mode_hyb cap : Bool) (lens : List Int) : Int :=
  if mode_hyb then (if cap then meanTileLen lens else listMax lens) else 1

/-- `tile_len_map` construction (`stage_mosaic.py` lines 223-228): each
streamable tile index maps to `min(tiles[tile_idx].len, max_tile_len)`;
all other indices keep the `np.zeros` default 0. -/
def tileLenMap (tiles : List PyTile) (streamable : List Nat) (max_tile_len : Int)
    (t : Nat) : Int :=
  if t ∈ streamable then
    min (tiles.getD t (mkTile none none)).len max_tile_len
  else 0

/-- Frame-offset computation of the hybrid draw kernels
(`render_funcs.py` line 116):
`mapped_id = tile_map[match_id] + frame_pos % end_frame_map[match_id]`. -/
def hybridMappedId (tile_map : Nat → Int) (end_frame_map : Nat → Int)
    (frame_pos : Int) (match_id : Nat) : Int :=
  tile_map match_id + frame_pos % end_frame_map match_id

/-- An accumulator bounds `foldl max` from below. -/
theorem le_foldl_max (lens : List Int) (init : Int) : init ≤ lens.foldl max init := by
  induction lens generalizing init with
  | nil => exact le_refl init
  | cons a l ih => exact le_trans (le_max_left init a) (ih (max init a))

/-- A list of lengths that are each at least 1 sums to at least its
length. -/
theorem length_le_sum_of_one_le (lens : List Int)
    (h : ∀ x ∈ lens, 1 ≤ x) : (lens.length : Int) ≤ lens.sum := by
  induction lens with
  | nil => simp
  | cons a l ih =>
    have ha := h a (List.mem_cons_self a l)
    have hl := ih (fun x hx => h x (List.mem_cons_of_mem a hx))
    simp only [List.length_cons, List.sum_cons]
    push_cast
    omega

/-- Every branch of the `max_tile_len` selection yields at least 1 when
every streamable tile's length is at least 1. -/
theorem maxTileLenOf_pos (mode_hyb cap : Bool) (lens : List Int)
    (hne : lens ≠ []) (h : ∀ x ∈ lens, 1 ≤ x) :
    1 ≤ maxTileLenOf mode_hyb cap lens := by
  unfold maxTileLenOf
  by_cases hm : mode_hyb = true
  · rw [if_pos hm]
    by_cases hc : cap = true
    · rw [if_pos hc]
      unfold meanTileLen
      have hlen : 0 < (lens.length : Int) := by
        have := List.length_pos.mpr hne
        omega
      exact (Int.le_ediv_iff_mul_le hlen).mpr
        (by have := length_le_sum_of_one_le lens h; omega)
    · rw [if_neg hc]
      unfold listMax
      obtain ⟨a, l, rfl⟩ := List.exists_cons_of_ne_nil hne
      have ha := h a (List.mem_cons_self a l)
      calc (1 : Int) ≤ a := ha
        _ = (a :: l).headD 0 := rfl
        _ ≤ (a :: l).foldl max ((a :: l).headD 0) := le_foldl_max _ _
  · rw [if_neg hm]

/-- C10: every constructed tile has frame length at least 1 — picture
tiles default to `end_frame_idx or 1 = 1`, and video tile candidates are
only constructed when the end frame is strictly after the start frame
(`if end_frame <= frame_idx: continue`, `tiles.py` line 102) — and
consequently, for every tile index appearing in a hybrid match grid
(hence in `streamable`), the frame-length map value is at least 1, so
the hybrid renderers' `frame_pos % end_frame_map[match_id]` never takes
a modulus by zero and the resulting frame offset stays inside the tile's
mapped slot range. -/
theorem hybrid_frame_len_positive (tiles : List PyTile) (streamable : List Nat)
    (mode_hyb cap : Bool) (frame_pos : Int) (tile_map : Nat → Int)
    (hne : streamable ≠ [])
    (hin : ∀ t ∈ streamable, t < tiles.length)
    (hpos : ∀ tile ∈ tiles, 1 ≤ tile.len) :
    (mkTile none none).len = 1 ∧
      (∀ fi ef : Nat, fi < ef → 1 ≤ (mkTile (some fi) (some ef)).len) ∧
      (∀ t ∈ streamable,
        1 ≤ tileLenMap tiles streamable
            (maxTileLenOf mode_hyb cap (lensOf tiles streamable)) t ∧
          tileLenMap tiles streamable
            (maxTileLenOf mode_hyb cap (lensOf tiles streamable)) t ≠ 0 ∧
          tile_map t ≤ hybridMappedId tile_map
            (tileLenMap tiles streamable
              (maxTileLenOf mode_hyb cap (lensOf tiles streamable))) frame_pos t ∧
          hybridMappedId tile_map
            (tileLenMap tiles streamable
              (maxTileLenOf mode_hyb cap (lensOf tiles streamable))) frame_pos t <
            tile_map t + tileLenMap tiles streamable
              (maxTileLenOf mode_hyb cap (lensOf tiles streamable)) t) := by
  have hlens1 : ∀ x ∈ lensOf tiles streamable, 1 ≤ x := by
    intro x hx
    obtain ⟨t, ht, rfl⟩ := List.mem_map.mp hx
    have htlen := hin t ht
    rw [List.getD_eq_getElem tiles (mkTile none none) htlen]
    exact hpos _ (List.getElem_mem htlen)
  have hlensne : lensOf tiles streamable ≠ [] := by
    intro h
    obtain ⟨a, l, rfl⟩ := List.exists_cons_of_ne_nil hne
    exact absurd h (by simp [lensOf])
  have hmax := maxTileLenOf_pos mode_hyb cap (lensOf tiles streamable) hlensne hlens1
  refine ⟨rfl, ?_, ?_⟩
  · intro fi ef hfe
    show (pyOr (some ef) 1 : Int) - (pyOr (some fi) 0 : Int) ≥ 1
    simp only [pyOr]
    have hef : ¬ef = 0 := by omega
    rw [if_neg hef]
    by_cases hfi : fi = 0
    · rw [if_pos hfi]
      omega
    · rw [if_neg hfi]
      omega
  · intro t ht
    have hmap1 : 1 ≤ tileLenMap tiles streamable
        (maxTileLenOf mode_hyb cap (lensOf tiles streamable)) t := by
      unfold tileLenMap
      rw [if_pos ht]
      have htlen := hin t ht
      have h1 : 1 ≤ (tiles.getD t (mkTile none none)).len := by
        rw [List.getD_eq_getElem tiles (mkTile none none) htlen]
        exact hpos _ (List.getElem_mem htlen)
      exact le_min h1 hmax
    refine ⟨hmap1, by omega, ?_, ?_⟩
    · unfold hybridMappedId
      have := Int.emod_nonneg frame_pos (b := tileLenMap tiles streamable
        (maxTileLenOf mode_hyb cap (lensOf tiles streamable)) t) (by omega)
      omega
    · unfold hybridMappedId
      have := Int.emod_lt_of_pos frame_pos (b := tileLenMap tiles streamable
        (maxTileLenOf mode_hyb cap (lensOf tiles streamable)) t) (by omega)
      omega

/-- Concrete instantiation of `hybrid_frame_len_positive`: one two-frame
video tile and one picture tile, both streamable, in capped hybrid mode
at frame 7. -/
theorem hybrid_frame_len_positive_witness :
    ([0, 1] : List Nat) ≠ [] ∧
      (∀ t ∈ ([0, 1] : List Nat), t < ([mkTile (some 0) (some 2), mkTile none none]).length) ∧
      (∀ tile ∈ [mkTile (some 0) (some 2), mkTile none none], 1 ≤ tile.len) ∧
      (∀ t ∈ ([0, 1] : List Nat),
        1 ≤ tileLenMap [mkTile (some 0) (some 2), mkTile none none] [0, 1]
            (maxTileLenOf true true
              (lensOf [mkTile (some 0) (some 2), mkTile none none] [0, 1])) t ∧
          tileLenMap [mkTile (some 0) (some 2), mkTile none none] [0, 1]
            (maxTileLenOf true true
              (lensOf [mkTile (some 0) (some 2), mkTile none none] [0, 1])) t ≠ 0 ∧
          (fun _ : Nat => (0 : Int)) t ≤ hybridMappedId (fun _ => 0)
            (tileLenMap [mkTile (some 0) (some 2), mkTile none none] [0, 1]
              (maxTileLenOf true true
                (lensOf [mkTile (some 0) (some 2), mkTile none none] [0, 1]))) 7 t ∧
          hybridMappedId (fun _ => 0)
            (tileLenMap [mkTile (some 0) (some 2), mkTile none none] [0, 1]
              (maxTileLenOf true true
                (lensOf [mkTile (some 0) (some 2), mkTile none none] [0, 1]))) 7 t <
            (fun _ : Nat => (0 : Int)) t + tileLenMap
              [mkTile (some 0) (some 2), mkTile none none] [0, 1]
              (maxTileLenOf true true
                (lensOf [mkTile (some 0) (some 2), mkTile none none] [0, 1])) t) :=
  ⟨by decide, by decide, by decide,
    (hybrid_frame_len_positive [mkTile (some 0) (some 2), mkTile none none] [0, 1]
      true true 7 (fun _ => 0) (by decide) (by decide) (by decide)).2.2⟩

end Pysaic
